import Mathlib

/-!
# Verification of the daisy-util library against its specification

This file gives a shallow embedding, in Lean 4, of the core of the
`@clc-blind/daisy-util` TypeScript library (DAISY v3 talking-book XML
utilities) and proves or refutes the specification claims about it.

Modelling conventions:

* xast nodes (`Element`, `Text`, `Comment`) are the inductive `XNode`;
  a xast `Root` is a plain `List XNode` of its children.
* JavaScript objects used as string-keyed dictionaries (metadata maps,
  attribute records) are association lists `List (String × α)` with
  JS-object update semantics: assigning to an existing key overwrites the
  value in place (keeping the key's position), assigning to a fresh key
  appends it.  Only own properties are modelled (no prototype chain).
* JavaScript numbers are modelled as `Nat`/`Int`.  All arithmetic the
  library performs on them (millisecond counts, indices, page numbers)
  stays far below `2^53`, where IEEE-754 doubles are exact integers, so
  no rounding is modelled.
* `unist-util-visit` style traversals are modelled as structural
  recursions that follow the same pre-order and the same early-exit /
  SKIP behaviour as the callbacks in the source.
-/

namespace DaisyUtil

/-- xast node: `element` / `text` / `comment`.  A xast `Root` is modelled
separately as a `List XNode` of its children. -/
inductive XNode where
  | element (name : String) (attributes : List (String × String)) (children : List XNode)
  | text (value : String)
  | comment (value : String)

/-- First value stored under a key in an association list (JS own-property
lookup). -/
def alookup {α : Type} : List (String × α) → String → Option α
  | [], _ => none
  | (k, v) :: rest, key => if k = key then some v else alookup rest key

/-- The attribute record of a node (elements only; other nodes have no
attributes, matching `element.attributes?.[name]` evaluating to
`undefined`). -/
def attrsOf : XNode → List (String × String)
  | .element _ attrs _ => attrs
  | _ => []

/-- The child list of a node (elements only). -/
def childrenOf : XNode → List XNode
  | .element _ _ cs => cs
  | _ => []

/-- `getAttribute` from `src/lib/utils.ts`: `element.attributes?.[attributeName] ?? undefined`. -/
def getAttribute (n : XNode) (attributeName : String) : Option String :=
  alookup (attrsOf n) attributeName

/-- Does the node satisfy the test `{ type: 'element', name: tag }`? -/
def isElemNamed (n : XNode) (tag : String) : Bool :=
  match n with
  | .element nm _ _ => nm = tag
  | _ => false

mutual
/-- `findElement` from `src/lib/utils.ts` run with an element as the tree:
`unist-util-visit` pre-order, visiting the node itself first, stopping at
the first element whose name matches (`return false` stops traversal). -/
def findElemN (tag : String) : XNode → Option XNode
  | .element nm attrs cs =>
    if nm = tag then some (.element nm attrs cs) else findElemL tag cs
  | _ => none

/-- `findElement` run with a root as the tree: the root node itself is not
an element, so the search is over the children in order. -/
def findElemL (tag : String) : List XNode → Option XNode
  | [] => none
  | c :: rest =>
    match findElemN tag c with
    | some r => some r
    | none => findElemL tag rest
end

mutual
/-- `findElements` from `src/lib/utils.ts`: all elements with the given
name, in pre-order (the visitor keeps descending into matches). -/
def findElemsN (tag : String) : XNode → List XNode
  | .element nm attrs cs =>
    (if nm = tag then [XNode.element nm attrs cs] else []) ++ findElemsL tag cs
  | _ => []

/-- `findElements` over a root's children. -/
def findElemsL (tag : String) : List XNode → List XNode
  | [] => []
  | c :: rest => findElemsN tag c ++ findElemsL tag rest
end

/-- `findDirectChildren` from `src/lib/utils.ts`: direct element children
with the given name, in order; non-recursive. -/
def findDirectChildren (n : XNode) (tag : String) : List XNode :=
  (childrenOf n).filter (fun c => isElemNamed c tag)

mutual
/-- The values of all text-type descendants of a node, in pre-order
(`visit(element, 'text', ...)` in `getTextContent`). -/
def textsN : XNode → List String
  | .text v => [v]
  | .element _ _ cs => textsL cs
  | .comment _ => []

/-- Text values collected from a list of nodes in order. -/
def textsL : List XNode → List String
  | [] => []
  | c :: rest => textsN c ++ textsL rest
end

/-- `getTextContent` from `src/lib/utils.ts`: concatenate every text
descendant's value in document order, then trim. -/
def getTextContent (n : XNode) : String :=
  (String.join (textsN n)).trim

/-- Spec-side: the tree (rooted at a node) contains an element with the
given tag name, at any depth, the node itself included. -/
inductive Occurs (tag : String) : XNode → Prop where
  | self (attrs : List (String × String)) (cs : List XNode) :
      Occurs tag (.element tag attrs cs)
  | child (nm : String) (attrs : List (String × String)) (cs : List XNode)
      (c : XNode) (hc : c ∈ cs) (h : Occurs tag c) :
      Occurs tag (.element nm attrs cs)

/-- Spec-side: some node of the root's child list contains an element with
the given tag name. -/
def OccursL (tag : String) (l : List XNode) : Prop :=
  ∃ c ∈ l, Occurs tag c

/-- Spec-side: the node has a direct child that is an element with the
given tag name. -/
def HasDirectChildNamed (n : XNode) (tag : String) : Prop :=
  ∃ c ∈ childrenOf n, ∃ attrs cs, c = XNode.element tag attrs cs

/-! ## Time codec (`src/lib/utils.ts`) -/

/-- `parseInt(ds, 10)` on a string of decimal digits. -/
def natOfDigits (ds : List Char) : Nat :=
  ds.foldl (fun a c => a * 10 + (c.toNat - 48)) 0

/-- The optional `(?:\.(\d{3}))?$` tail of the time regex: an empty
remainder means no milliseconds (0), a dot followed by exactly three
digits gives their value, anything else fails the whole match. -/
def msParse : List Char → Option Nat
  | [] => some 0
  | c :: rest =>
    if c = '.' then
      match rest with
      | [d1, d2, d3] =>
        if d1.isDigit && d2.isDigit && d3.isDigit then
          some (natOfDigits [d1, d2, d3])
        else none
      | _ => none
    else none

/-- Matching `timeStr` against `/^(\d+):(\d{2}):(\d{2})(?:\.(\d{3}))?$/`,
returning the numeric values of the four groups.  The greedy `\d+` is
equivalent to `takeWhile isDigit` because the following character must be
the non-digit `':'`. -/
def timeMatch (cs : List Char) : Option (Nat × Nat × Nat × Nat) :=
  let hs := cs.takeWhile Char.isDigit
  if hs.isEmpty then none
  else
    match cs.dropWhile Char.isDigit with
    | c0 :: m1 :: m2 :: c1 :: s1 :: s2 :: rest2 =>
      if c0 = ':' && c1 = ':' && m1.isDigit && m2.isDigit && s1.isDigit && s2.isDigit then
        match msParse rest2 with
        | some ms => some (natOfDigits hs, natOfDigits [m1, m2], natOfDigits [s1, s2], ms)
        | none => none
      else none
    | _ => none

/-- `parseTime` from `src/lib/utils.ts`: `0` for the empty (falsy) string,
`0` when the strict pattern does not match or minutes/seconds/milliseconds
are out of range, otherwise total milliseconds. -/
def parseTime (timeStr : String) : Nat :=
  if timeStr = "" then 0
  else
    match timeMatch timeStr.data with
    | none => 0
    | some (hours, minutes, seconds, milliseconds) =>
      if 60 ≤ minutes ∨ 60 ≤ seconds ∨ 1000 ≤ milliseconds then 0
      else (hours * 3600 + minutes * 60 + seconds) * 1000 + milliseconds

/-- `calculateDuration` from `src/lib/utils.ts`:
`Math.max(0, parseTime(endTime) - parseTime(startTime))`. -/
def calculateDuration (startTime endTime : String) : Int :=
  max 0 ((parseTime endTime : Int) - (parseTime startTime : Int))

/-- The optional milliseconds group as the characters it contributes to the
matched string. -/
def msChars : Option (List Char) → List Char
  | none => []
  | some d => '.' :: d

/-- The numeric value of the optional milliseconds group. -/
def msVal : Option (List Char) → Nat
  | none => 0
  | some d => natOfDigits d

/-- Well-formedness of the optional milliseconds group: if present it is
exactly three digits. -/
abbrev msOk : Option (List Char) → Prop
  | none => True
  | some d => d.length = 3 ∧ ∀ c ∈ d, c.isDigit

/-- Spec-side description of the accepted time syntax
`H+:mm:ss(.SSS)?` — `s` decomposes into a non-empty run of hour digits,
exactly two minute digits, exactly two second digits and an optional
three-digit millisecond group. -/
abbrev IsTimeForm (s : String) (hds mds sds : List Char) (msp : Option (List Char)) : Prop :=
  s.data = hds ++ ':' :: (mds ++ ':' :: (sds ++ msChars msp)) ∧
  hds ≠ [] ∧ (∀ c ∈ hds, c.isDigit) ∧
  mds.length = 2 ∧ (∀ c ∈ mds, c.isDigit) ∧
  sds.length = 2 ∧ (∀ c ∈ sds, c.isDigit) ∧
  msOk msp

/-! ## `formatTime` (`src/lib/utils.ts`), i.e. date-fns `formatISO(new Date(ms))`

`formatTime` delegates to the external collaborator `date-fns`:
`formatISO(new Date(milliseconds))` renders the instant `milliseconds`
after the Unix epoch as an extended ISO-8601 date-time in the local time
zone, with no milliseconds component.  The model takes the local zone's
UTC offset (in minutes west of UTC, the value of `getTimezoneOffset()` at
that instant) as an explicit parameter; `0` is UTC. -/

/-- Days-to-civil-date conversion used by `Date#getFullYear/getMonth/getDate`
(the standard proleptic-Gregorian algorithm). -/
def civilFromDays (z0 : Int) : Int × Int × Int :=
  let z := z0 + 719468
  let era := Int.fdiv z 146097
  let doe : Nat := (z - era * 146097).toNat
  let yoe : Nat := (doe - doe / 1460 + doe / 36524 - doe / 146096) / 365
  let doy : Nat := doe - (365 * yoe + yoe / 4 - yoe / 100)
  let mp : Nat := (5 * doy + 2) / 153
  let d : Nat := doy - (153 * mp + 2) / 5 + 1
  let m : Nat := if mp < 10 then mp + 3 else mp - 9
  let y : Int := (yoe : Int) + era * 400 + (if m ≤ 2 then 1 else 0)
  (y, (m : Int), (d : Int))

/-- date-fns `addLeadingZeros(number, targetLength)`:
`String(Math.abs(n)).padStart(targetLength, '0')` with the sign out front. -/
def addLeadingZeros (n : Int) (targetLength : Nat) : String :=
  let s := toString n.natAbs
  (if n < 0 then "-" else "") ++
    String.mk (List.replicate (targetLength - s.length) '0') ++ s

/-- `formatTime(milliseconds)` = date-fns `formatISO(new Date(milliseconds))`:
`yyyy-MM-ddTHH:mm:ss` followed by `Z` or the `±HH:mm` zone offset.
`offsetMin` is `getTimezoneOffset()` (minutes west of UTC). -/
def formatTime (offsetMin : Int) (milliseconds : Int) : String :=
  let localMs : Int := milliseconds - offsetMin * 60000
  let day : Int := Int.fdiv localMs 86400000
  let tod : Nat := (Int.emod localMs 86400000).toNat
  let ymd := civilFromDays day
  let hh : Nat := tod / 3600000
  let mi : Nat := tod % 3600000 / 60000
  let ss : Nat := tod % 60000 / 1000
  let tzStr : String :=
    if offsetMin = 0 then "Z"
    else
      (if offsetMin < 0 then "+" else "-") ++
        addLeadingZeros ((offsetMin.natAbs / 60 : Nat) : Int) 2 ++ ":" ++
        addLeadingZeros ((offsetMin.natAbs % 60 : Nat) : Int) 2
  addLeadingZeros ymd.1 4 ++ "-" ++ addLeadingZeros ymd.2.1 2 ++ "-" ++
    addLeadingZeros ymd.2.2 2 ++ "T" ++ addLeadingZeros (hh : Int) 2 ++ ":" ++
    addLeadingZeros (mi : Int) 2 ++ ":" ++ addLeadingZeros (ss : Int) 2 ++ tzStr

/-! ## Metadata extractor (`extractMetadata`, `src/lib/utils.ts`) -/

/-- A value in a metadata map: a scalar string, an ordered sequence of
strings, or JS `undefined` (possible for OPF Dublin Core elements with no
text child). -/
inductive MetaValue where
  | str (s : String)
  | seq (l : List String)
  | undef

/-- Overwrite the value stored under an existing key, keeping its
position (`md.map (fun p => if p.1 = k then (k, v) else p)`). -/
def replaceKey {α : Type} : List (String × α) → String → α → List (String × α)
  | [], _, _ => []
  | (k1, v1) :: rest, k, v =>
    (if k1 = k then (k, v) else (k1, v1)) :: replaceKey rest k v

/-- JS object property assignment `obj[k] = v`: overwrite in place if the
key exists, append otherwise. -/
def objSet {α : Type} (md : List (String × α)) (k : String) (v : α) :
    List (String × α) :=
  if (alookup md k).isSome then replaceKey md k v else md ++ [(k, v)]

/-- One key/value insertion in `extractMetadata`: first value scalar, a
repeat promotes to a sequence and appends (the `undef` case corresponds to
a falsy stored value and behaves like plain assignment). -/
def metaUpsert (md : List (String × MetaValue)) (k v : String) :
    List (String × MetaValue) :=
  match alookup md k with
  | some (.seq l) => replaceKey md k (.seq (l ++ [v]))
  | some (.str s) => replaceKey md k (.seq [s, v])
  | some .undef => replaceKey md k (.str v)
  | none => md ++ [(k, .str v)]

/-- The `forEach` body of `extractMetadata`: read `name` and `content`
attributes, skip the element unless both are truthy (present and
non-empty). -/
def extractMetaStep (md : List (String × MetaValue)) (m : XNode) :
    List (String × MetaValue) :=
  match getAttribute m "name", getAttribute m "content" with
  | some n, some c => if n ≠ "" ∧ c ≠ "" then metaUpsert md n c else md
  | _, _ => md

/-- `extractMetadata` from `src/lib/utils.ts`. -/
def extractMetadata (metaElements : List XNode) : List (String × MetaValue) :=
  metaElements.foldl extractMetaStep []

/-- Spec-side: the contents contributed to key `k`, in encounter order
(elements with truthy `name` equal to `k` and truthy `content`). -/
def metaContents (k : String) (metas : List XNode) : List String :=
  metas.filterMap (fun m =>
    match getAttribute m "name", getAttribute m "content" with
    | some n, some c => if n = k ∧ n ≠ "" ∧ c ≠ "" then some c else none
    | _, _ => none)

/-- The effect of one more content value on a key's stored value (the case
split of `extractMetadata`'s `if` on the stored value). -/
def pushVal : Option MetaValue → String → MetaValue
  | none, v => .str v
  | some (.str s), v => .seq [s, v]
  | some (.seq l), v => .seq (l ++ [v])
  | some .undef, v => .str v

/-- Spec-side: the value a key holds after all its contents were recorded:
absent for none, the scalar for exactly one, the ordered sequence for
several. -/
def collapseContents : List String → Option MetaValue
  | [] => none
  | [v] => some (.str v)
  | v :: vs => some (.seq (v :: vs))

/-! ## Tree splitter (`splitDaisyTreeByTag`, `src/lib/dtb.ts`)

`splitDaisyTreeByTag` wraps the children in a fresh root and runs
`visit(wrapper, test, cb)`.  The callback acts (slices a part and advances
`lastIndex`) only when `parent === wrapper`, i.e. on direct children, and
returns `SKIP` for every match, so matched nodes are never descended into;
non-matching children are descended into but matches found there are
`SKIP`ped without touching the state.  Tests are modelled as Boolean
predicates on nodes (the library builds them from
`{ type: 'element', name }` objects, which never match the internal root
wrapper). -/

/-- State of the split traversal: sealed parts and the `lastIndex`
cursor. -/
structure SplitSt where
  parts : List (List XNode)
  lastIndex : Nat

mutual
/-- Traversal of a non-direct node: a match is `SKIP`ped with no state
change; a non-match that is an element is descended into. -/
def visitDeep (test : XNode → Bool) (st : SplitSt) (n : XNode) : SplitSt :=
  if test n then st
  else
    match n with
    | .element _ _ cs => visitDeepL test st cs
    | _ => st
termination_by sizeOf n

/-- Deep traversal of a child list, left to right. -/
def visitDeepL (test : XNode → Bool) (st : SplitSt) (l : List XNode) : SplitSt :=
  match l with
  | [] => st
  | c :: rest => visitDeepL test (visitDeep test st c) rest
termination_by sizeOf l
end

/-- The scan over the wrapper's direct children: a matching child at index
`i` seals the slice `[lastIndex, i]` as a part and moves `lastIndex` past
it; a non-matching child is descended into (with no effect on the
state). -/
def splitGo (test : XNode → Bool) (full : List XNode) :
    Nat → List XNode → SplitSt → SplitSt
  | _, [], st => st
  | i, c :: rest, st =>
    if test c then
      splitGo test full (i + 1) rest
        ⟨st.parts ++ [(full.drop st.lastIndex).take (i + 1 - st.lastIndex)], i + 1⟩
    else
      splitGo test full (i + 1) rest (visitDeep test st c)

/-- Result record `{ parts, totalParts }`. -/
structure DaisyTreeSplitResult where
  parts : List (List XNode)
  totalParts : Nat

/-- The final step of `splitDaisyTreeByTag`: push the nodes after the last
match as a final part, if any. -/
def finalizeParts (full : List XNode) (st : SplitSt) : List (List XNode) :=
  if st.lastIndex < full.length then st.parts ++ [full.drop st.lastIndex]
  else st.parts

/-- `splitDaisyTreeByTag` from `src/lib/dtb.ts`. -/
def splitDaisyTreeByTag (tree : XNode) (test : XNode → Bool) :
    DaisyTreeSplitResult :=
  let children := childrenOf tree
  if children.isEmpty then ⟨[], 0⟩
  else
    let parts := finalizeParts children (splitGo test children 0 children ⟨[], 0⟩)
    ⟨parts, parts.length⟩

/-- Spec-side split (`§4.6 splitByTag`): a part accumulates children until
a child matches the test, which seals the part (inclusive); trailing
children form a final part; no children and no accumulation yield no
part. -/
def splitPartsSpec (test : XNode → Bool) : List XNode → List XNode → List (List XNode)
  | [], acc => if acc.isEmpty then [] else [acc]
  | c :: rest, acc =>
    if test c then (acc ++ [c]) :: splitPartsSpec test rest []
    else splitPartsSpec test rest (acc ++ [c])

/-! ## Paginator (`paginateDaisyTree`, `src/lib/dtb.ts`) -/

/-- Navigation URLs of a page. -/
structure PageUrl where
  current : String
  prev : Option String
  next : Option String
  first : Option String
  last : Option String

/-- A `Page<Root>` record (the source's `end` field is called `stop` here
because `end` is a Lean keyword). -/
structure Page where
  data : List (List XNode)
  start : Nat
  stop : Nat
  total : Nat
  currentPage : Nat
  size : Nat
  lastPage : Nat
  url : PageUrl

/-- The test built by `paginateDaisyTree` from its `tagName` option: an
array of `{ type: 'element', name }` tests, one per tag name. -/
def elemTestOf (tagNames : List String) (n : XNode) : Bool :=
  match n with
  | .element nm _ _ => tagNames.contains nm
  | _ => false

/-- `paginateDaisyTree` from `src/lib/dtb.ts` (`tagName` is already
normalised to a list; defaults are `["p"]` and `"/"`).  `Math.ceil` on the
natural division is `(totalItems + itemsPerPage - 1) / itemsPerPage`. -/
def paginateDaisyTree (tree : XNode) (itemsPerPage : Nat)
    (tagName : List String) (basePath : String) : List Page :=
  let parts := (splitDaisyTreeByTag tree (elemTestOf tagName)).parts
  if parts.isEmpty then []
  else
    let totalItems := parts.length
    let totalPages := (totalItems + itemsPerPage - 1) / itemsPerPage
    (List.range totalPages).map (fun i =>
      let start := i * itemsPerPage
      let stop := min (start + itemsPerPage) totalItems
      let currentPage := i + 1
      { data := (parts.drop start).take (stop - start)
        start := start
        stop := stop - 1
        total := totalItems
        currentPage := currentPage
        size := itemsPerPage
        lastPage := totalPages
        url :=
          { current := basePath ++ toString currentPage
            prev :=
              if currentPage > 1 then some (basePath ++ toString (currentPage - 1))
              else none
            next :=
              if currentPage < totalPages then
                some (basePath ++ toString (currentPage + 1))
              else none
            first := if currentPage > 1 then some (basePath ++ "1") else none
            last :=
              if currentPage < totalPages then
                some (basePath ++ toString totalPages)
              else none } })

/-- The page record `paginateDaisyTree` builds for 0-based page index `i`
over `parts`. -/
def mkPageAt (parts : List (List XNode)) (itemsPerPage : Nat)
    (basePath : String) (totalPages i : Nat) : Page :=
  let start := i * itemsPerPage
  let stop := min (start + itemsPerPage) parts.length
  let currentPage := i + 1
  { data := (parts.drop start).take (stop - start)
    start := start
    stop := stop - 1
    total := parts.length
    currentPage := currentPage
    size := itemsPerPage
    lastPage := totalPages
    url :=
      { current := basePath ++ toString currentPage
        prev :=
          if currentPage > 1 then some (basePath ++ toString (currentPage - 1))
          else none
        next :=
          if currentPage < totalPages then
            some (basePath ++ toString (currentPage + 1))
          else none
        first := if currentPage > 1 then some (basePath ++ "1") else none
        last :=
          if currentPage < totalPages then some (basePath ++ toString totalPages)
          else none } }

/-! ## OPF parser (`parseOpf`, `src/lib/opf.ts`) -/

mutual
/-- `unist-util-select` child-combinator `element[name=pName] > …`:
pre-order collection of the nodes satisfying `pred` whose parent is an
element named `pName`. -/
def selChildN (pName : String) (pred : XNode → Bool) (parentIsP : Bool) :
    XNode → List XNode
  | .element nm attrs cs =>
    (if parentIsP && pred (.element nm attrs cs) then [XNode.element nm attrs cs]
     else []) ++ selChildL pName pred (nm == pName) cs
  | n => if parentIsP && pred n then [n] else []

/-- Child-combinator selection over a node list. -/
def selChildL (pName : String) (pred : XNode → Bool) (parentIsP : Bool) :
    List XNode → List XNode
  | [] => []
  | c :: rest =>
    selChildN pName pred parentIsP c ++ selChildL pName pred parentIsP rest
end

/-- `selectAll('element[name=pName] > …', tree)` for a root tree (the root
is not an element, so it is never a `pName` parent). -/
def selectChildAll (pName : String) (pred : XNode → Bool)
    (rootChildren : List XNode) : List XNode :=
  selChildL pName pred false rootChildren

mutual
/-- `select('text', element)`: the first text-type node in pre-order. -/
def firstTextN : XNode → Option String
  | .text v => some v
  | .element _ _ cs => firstTextL cs
  | .comment _ => none

/-- First text-type node within a node list. -/
def firstTextL : List XNode → Option String
  | [] => none
  | c :: rest =>
    match firstTextN c with
    | some v => some v
    | none => firstTextL rest
end

/-- The `metadataMapping` table of `parseOpf`. -/
def metadataMapping : List (String × String) :=
  [("dc:Title", "title"), ("dc:Creator", "creator"),
   ("dc:Identifier", "identifier"), ("dc:Subject", "subject"),
   ("dc:Description", "description"), ("dc:Publisher", "publisher"),
   ("dc:Date", "date"), ("dc:Language", "language"),
   ("dc:Source", "source"), ("dc:Format", "format")]

/-- A manifest entry `{ id, href, mediaType }`. -/
structure ManifestItem where
  id : String
  href : String
  mediaType : String

/-- A spine entry `{ idref, linear }`. -/
structure SpineItem where
  idref : String
  linear : Bool

/-- The `OpfData` record. -/
structure OpfData where
  metadata : List (String × MetaValue)
  manifest : List ManifestItem
  spine : List SpineItem

/-- `getAttribute(el, a) || ''` (also used for plain `el.attributes.a || ''`). -/
def attrOrEmpty (el : XNode) (a : String) : String :=
  match getAttribute el a with
  | some v => v
  | none => ""

/-- The Dublin Core loop body of `parseOpf`: map the element's tag name
through `metadataMapping` and store the value of its first text node
(`undefined` if it has none). -/
def dcStep (md : List (String × MetaValue)) (el : XNode) :
    List (String × MetaValue) :=
  match el with
  | .element nm _ _ =>
    match alookup metadataMapping nm with
    | some key =>
      objSet md key
        (match firstTextN el with
         | some v => .str v
         | none => .undef)
    | none => md
  | _ => md

/-- `parseOpf` from `src/lib/opf.ts`, applied to the already-parsed tree:
raises iff there is no `package` element; Dublin Core values are written
first, then the `x-metadata` `<meta>` values are merged over them
(`Object.assign(metadata, {...metadata, ...xMetadata})`). -/
def parseOpf (tree : List XNode) : Except String OpfData :=
  match findElemL "package" tree with
  | none => .error "Invalid OPF file: no package element found"
  | some _ =>
    let dcMetadataElements := selectChildAll "dc-metadata" (fun _ => true) tree
    let xMetadataElements :=
      selectChildAll "x-metadata" (fun n => isElemNamed n "meta") tree
    let dcApplied := dcMetadataElements.foldl dcStep []
    let xMetadata := extractMetadata xMetadataElements
    let metadata := xMetadata.foldl (fun md p => objSet md p.1 p.2) dcApplied
    let manifest :=
      (selectChildAll "manifest" (fun n => isElemNamed n "item") tree).map
        (fun item =>
          ({ id := attrOrEmpty item "id"
             href := attrOrEmpty item "href"
             mediaType := attrOrEmpty item "media-type" } : ManifestItem))
    let spine :=
      (selectChildAll "spine" (fun n => isElemNamed n "itemref") tree).map
        (fun itemref =>
          ({ idref := attrOrEmpty itemref "idref"
             linear := getAttribute itemref "linear" != some "no" } : SpineItem))
    .ok { metadata := metadata, manifest := manifest, spine := spine }

/-! ## NCX parser (`parseNcx`, `src/lib/ncx.ts`) -/

/-- A navigation point; `playOrder` is the result of
`parseInt(getAttribute(navPoint, 'playOrder') || '0', 10)`, with `none`
standing for `NaN`. -/
structure NavPoint where
  id : String
  level : Nat
  label : String
  src : String
  playOrder : Option Int

/-- The `NcxData` record. -/
structure NcxData where
  metadata : List (String × MetaValue)
  navPoints : List NavPoint
  docTitle : Option String

/-- JS `parseInt(s, 10)`: skip leading whitespace, optional sign, then the
longest digit prefix; `none` models `NaN` (no digits). -/
def jsParseInt (s : String) : Option Int :=
  let cs := s.data.dropWhile Char.isWhitespace
  let signAndRest : Int × List Char :=
    match cs with
    | c :: rest => if c = '-' then (-1, rest) else if c = '+' then (1, rest) else (1, cs)
    | [] => (1, cs)
  let ds := signAndRest.2.takeWhile Char.isDigit
  if ds.isEmpty then none else some (signAndRest.1 * (natOfDigits ds : Int))

/-- One `NavPoint` record, as built in `parseNavPoints`. -/
def mkNavPoint (n : XNode) (level : Nat) : NavPoint :=
  let playOrderStr :=
    match getAttribute n "playOrder" with
    | some v => if v = "" then "0" else v
    | none => "0"
  { id := attrOrEmpty n "id"
    level := level
    label :=
      match findElemN "navLabel" n with
      | some navLabelElement =>
        match findElemN "text" navLabelElement with
        | some labelTextElement => getTextContent labelTextElement
        | none => ""
      | none => ""
    src :=
      match findElemN "content" n with
      | some contentElement => attrOrEmpty contentElement "src"
      | none => ""
    playOrder := jsParseInt playOrderStr }

/-- `parseNavPoints` from `src/lib/ncx.ts` with the
`findDirectChildren(·, 'navPoint')` filter fused into the scan: scanning a
child list records every direct `navPoint` element (in order) at the
current level, followed by the records of its own direct `navPoint`
children one level deeper. -/
def parseNavScan : List XNode → Nat → List NavPoint
  | [], _ => []
  | .element nm attrs cs :: rest, level =>
    (if nm = "navPoint" then
      mkNavPoint (.element nm attrs cs) level :: parseNavScan cs (level + 1)
     else []) ++ parseNavScan rest level
  | _ :: rest, level => parseNavScan rest level

/-- `parseNcx` from `src/lib/ncx.ts`, applied to the already-parsed tree:
raises iff there is no `ncx` element. -/
def parseNcx (tree : List XNode) : Except String NcxData :=
  match findElemL "ncx" tree with
  | none => .error "Invalid NCX file: no ncx element found"
  | some ncxElement =>
    let metaElements :=
      match findElemN "head" ncxElement with
      | some headElement => findElemsN "meta" headElement
      | none => []
    let navChildren :=
      match findElemN "navMap" ncxElement with
      | some navMapElement => childrenOf navMapElement
      | none => []
    .ok
      { metadata := extractMetadata metaElements
        navPoints := parseNavScan navChildren 1
        docTitle :=
          match findElemN "docTitle" ncxElement with
          | some docTitleElement =>
            some (getTextContent
              (match findElemN "text" docTitleElement with
               | some t => t
               | none => docTitleElement))
          | none => none }

/-! ## SMIL parser (`parseSmil`, `src/lib/smil.ts`) -/

/-- An audio clip `{ src, clipBegin, clipEnd, duration }`. -/
structure AudioClip where
  src : String
  clipBegin : String
  clipEnd : String
  duration : Int

/-- `extractAudioClip` from `src/lib/smil.ts`: the first `audio` element
in the subtree must carry truthy `src`, `clipBegin` and `clipEnd`
attributes; `duration` is `calculateDuration(clipBegin, clipEnd)`. -/
def extractAudioClip (element : XNode) : Option AudioClip :=
  match findElemN "audio" element with
  | none => none
  | some audioElement =>
    match getAttribute audioElement "src", getAttribute audioElement "clipBegin",
        getAttribute audioElement "clipEnd" with
    | some src, some clipBegin, some clipEnd =>
      if src ≠ "" ∧ clipBegin ≠ "" ∧ clipEnd ≠ "" then
        some
          { src := src, clipBegin := clipBegin, clipEnd := clipEnd
            duration := calculateDuration clipBegin clipEnd }
      else none
    | _, _, _ => none

/-- The `SmilData` record (`elements` is the JS object keyed by
`"file#id"`). -/
structure SmilData where
  metadata : List (String × MetaValue)
  elements : List (String × AudioClip)

/-- `parseSmil` from `src/lib/smil.ts`, applied to the already-parsed
tree: raises iff there is no `smil` element. -/
def parseSmil (tree : List XNode) (smilFileName : String) :
    Except String SmilData :=
  match findElemL "smil" tree with
  | none => .error "Invalid SMIL file: no smil element found"
  | some _ =>
    let elements :=
      (findElemsL "par" tree).foldl
        (fun m element =>
          match getAttribute element "id" with
          | some id =>
            if id ≠ "" then
              match extractAudioClip element with
              | some audioClip => objSet m (smilFileName ++ "#" ++ id) audioClip
              | none => m
            else m
          | none => m) []
    .ok { metadata := extractMetadata (findElemsL "meta" tree), elements := elements }

/-! ## SMIL metadata updater (`updateSmilMetadataFromTree`, `src/lib/smil.ts`)

The updater runs `visit(tree, {type:'element', name:'meta'}, cb)` where the
callback both rewrites the matched meta's `content` and — inside the
callback — appends `<meta>` children for every not-yet-updated key to the
**current** meta's parent.  `unist-util-visit` iterates a parent's child
array live, so children appended during the iteration are visited too.
The model processes each child list as a queue that can grow at its end;
`fuel` bounds the number of steps, and `none` (never produced for the
inputs used here) would signal fuel exhaustion. -/

/-- A fresh `<meta name=k content=v>` node as pushed by the updater. -/
def mkMetaNode (k v : String) : XNode :=
  .element "meta" [("name", k), ("content", v)] []

/-- The visit of `updateSmilMetadataFromTree` over one child list
(`processed` is reversed).  For each `meta` element: rewrite `content`
when its `name` is a key of `newMetadata` and record the key; then (with
`createIfMissing`) append one new meta per key not yet recorded to this
list's end; then descend into the meta's children; other elements are
descended into; other nodes are skipped. -/
def smilVisit (newMetadata : List (String × String)) (shouldCreate : Bool) :
    Nat → List String → List XNode → List XNode → Option (List XNode × List String)
  | 0, _, _, _ => none
  | _ + 1, keys, processed, [] => some (processed.reverse, keys)
  | fuel + 1, keys, processed, c :: pending =>
    match c with
    | .element nm attrs cs =>
      if nm = "meta" then
        let hit : Option String :=
          match alookup attrs "name" with
          | some n => if n ≠ "" ∧ (alookup newMetadata n).isSome then some n else none
          | none => none
        let attrs1 :=
          match hit with
          | some n =>
            objSet attrs "content"
              (match alookup newMetadata n with
               | some v => v
               | none => "")
          | none => attrs
        let keys1 :=
          match hit with
          | some n => if n ∈ keys then keys else keys ++ [n]
          | none => keys
        let appended :=
          if shouldCreate then
            (newMetadata.filter (fun kv => ¬ kv.1 ∈ keys1)).map
              (fun kv => mkMetaNode kv.1 kv.2)
          else []
        match smilVisit newMetadata shouldCreate fuel keys1 [] cs with
        | none => none
        | some (cs1, keys2) =>
          smilVisit newMetadata shouldCreate fuel keys2
            (.element nm attrs1 cs1 :: processed) (pending ++ appended)
      else
        match smilVisit newMetadata shouldCreate fuel keys [] cs with
        | none => none
        | some (cs1, keys1) =>
          smilVisit newMetadata shouldCreate fuel keys1
            (.element nm attrs cs1 :: processed) pending
    | other => smilVisit newMetadata shouldCreate fuel keys (other :: processed) pending

/-- `updateSmilMetadataFromTree(tree, newMetadata, { createIfMissing })`
on a root tree, returning the mutated child list. -/
def updateSmilMetadataFromTree (fuel : Nat) (tree : List XNode)
    (newMetadata : List (String × String)) (createIfMissing : Bool) :
    Option (List XNode) :=
  (smilVisit newMetadata createIfMissing fuel [] [] tree).map (·.1)

mutual
/-- Number of `meta` elements in a subtree whose `name` attribute equals
`nameVal`. -/
def countMetasNamedN (nameVal : String) : XNode → Nat
  | .element nm attrs cs =>
    (if nm = "meta" ∧ alookup attrs "name" = some nameVal then 1 else 0) +
      countMetasNamedL nameVal cs
  | _ => 0

/-- Count over a child list. -/
def countMetasNamedL (nameVal : String) : List XNode → Nat
  | [] => 0
  | c :: rest => countMetasNamedN nameVal c + countMetasNamedL nameVal rest
end

/-! ## Concrete inputs used by witnesses and counterexamples -/

/-- Children `[a, p(id=x), b, p(id=y), c]` from the spec's split example. -/
def splitExTree : XNode :=
  .element "level1" []
    [.element "a" [] [], .element "p" [("id", "x")] [],
     .element "b" [] [], .element "p" [("id", "y")] [],
     .element "c" [] []]

/-- The `{ type: 'element', name: 'p' }` test. -/
def pTest (n : XNode) : Bool := isElemNamed n "p"

/-- A tree whose only `p` elements are nested inside a non-matching child. -/
def nestedPTree : XNode :=
  .element "main" []
    [.element "div" [] [.element "p" [("id", "inner")] []],
     .element "span" [] []]

/-- A parent with five direct `p` children (five parts when split). -/
def fivePsTree : XNode :=
  .element "sec" []
    [.element "p" [("id", "1")] [], .element "p" [("id", "2")] [],
     .element "p" [("id", "3")] [], .element "p" [("id", "4")] [],
     .element "p" [("id", "5")] []]

/-- An OPF tree carrying the key `title` both as `dc:Title` (value `A`)
and as an `x-metadata` `<meta name="title">` (value `B`). -/
def opfOverlapTree : List XNode :=
  [.element "package" []
    [.element "metadata" []
      [.element "dc-metadata" []
        [.element "dc:Title" [] [.text "A"]],
       .element "x-metadata" []
        [.element "meta" [("name", "title"), ("content", "B")] []]]]]

/-- The `OpfData` record `parseOpf` produces for `opfOverlapTree`: the
`<meta>` value `B` has overwritten the Dublin-Core-derived `A`. -/
def opfOverlapData : OpfData :=
  { metadata := [("title", .str "B")], manifest := [], spine := [] }

/-- A SMIL `par` element with a complete nested `audio` element. -/
def parClipTree : XNode :=
  .element "par" [("id", "tcp1")]
    [.element "audio"
      [("src", "audio01.mp3"), ("clipBegin", "0:00:10.500"),
       ("clipEnd", "0:00:15.750")] []]

/-- Two meta elements with the same name and different contents. -/
def dupMetas : List XNode :=
  [.element "meta" [("name", "dc:format"), ("content", "one")] [],
   .element "meta" [("name", "dc:format"), ("content", "two")] []]

/-- An element with no text descendants. -/
def noTextEl : XNode := .element "br" [("id", "b1")] []

/-- A SMIL tree whose head holds a meta with an unrelated name before the
meta the update targets. -/
def smilBugTree : List XNode :=
  [.element "smil" []
    [.element "head" []
      [.element "meta" [("name", "dc:format"), ("content", "Daisy 3")] [],
       .element "meta" [("name", "dtb:totalElapsedTime"), ("content", "0:00:00")] []]]]

/-- The update applied to `smilBugTree`. -/
def smilBugNewMetadata : List (String × String) :=
  [("dtb:totalElapsedTime", "1:23:45")]

/-! # Helper lemmas

## Query layer: search is sound and complete for `Occurs` -/

theorem occurs_element_iff {tag nm : String} {attrs : List (String × String)}
    {cs : List XNode} :
    Occurs tag (.element nm attrs cs) ↔ nm = tag ∨ ∃ c ∈ cs, Occurs tag c := by
  constructor
  · intro h
    cases h with
    | self => exact Or.inl rfl
    | child _ _ _ c hc h => exact Or.inr ⟨c, hc, h⟩
  · rintro (rfl | ⟨c, hc, h⟩)
    · exact .self attrs cs
    · exact .child nm attrs cs c hc h

theorem not_occurs_text {tag v : String} : ¬ Occurs tag (.text v) := by
  intro h; cases h

theorem not_occurs_comment {tag v : String} : ¬ Occurs tag (.comment v) := by
  intro h; cases h

mutual
theorem findElemN_eq_none (tag : String) :
    (n : XNode) → (findElemN tag n = none ↔ ¬ Occurs tag n)
  | .element nm attrs cs => by
    by_cases hnm : nm = tag
    · subst hnm
      simp only [findElemN, if_pos rfl]
      constructor
      · intro h; cases h
      · intro h; exact absurd (Occurs.self attrs cs) h
    · simp only [findElemN, if_neg hnm]
      rw [findElemL_eq_none tag cs]
      rw [occurs_element_iff]
      constructor
      · intro h hocc
        rcases hocc with hnm' | ⟨c, hc, hocc⟩
        · exact hnm hnm'
        · exact h c hc hocc
      · intro h c hc hocc
        exact h (Or.inr ⟨c, hc, hocc⟩)
  | .text v => by
    simp only [findElemN]
    exact ⟨fun _ => not_occurs_text, fun _ => trivial⟩
  | .comment v => by
    simp only [findElemN]
    exact ⟨fun _ => not_occurs_comment, fun _ => trivial⟩

theorem findElemL_eq_none (tag : String) :
    (l : List XNode) → (findElemL tag l = none ↔ ∀ c ∈ l, ¬ Occurs tag c)
  | [] => by simp [findElemL]
  | c :: rest => by
    simp only [findElemL]
    cases hc : findElemN tag c with
    | some r =>
      simp only [reduceCtorEq, false_iff, not_forall]
      refine ⟨c, by simp, ?_⟩
      intro hnocc
      rw [← findElemN_eq_none tag c] at hnocc
      simp [hc] at hnocc
    | none =>
      rw [findElemL_eq_none tag rest]
      have hcn := (findElemN_eq_none tag c).mp hc
      constructor
      · intro h d hd
        rcases List.mem_cons.mp hd with rfl | hd'
        · exact hcn
        · exact h d hd'
      · intro h d hd
        exact h d (List.mem_cons_of_mem _ hd)
end

/-! ## Time codec lemmas -/

theorem char_isDigit_toNat {c : Char} (h : c.isDigit = true) :
    48 ≤ c.toNat ∧ c.toNat ≤ 57 := by
  simp only [Char.isDigit, Bool.and_eq_true, decide_eq_true_eq] at h
  obtain ⟨h1, h2⟩ := h
  have h1' : (48 : UInt32).toNat ≤ c.val.toNat := h1
  have h2' : c.val.toNat ≤ (57 : UInt32).toNat := h2
  have e1 : (48 : UInt32).toNat = 48 := by decide
  have e2 : (57 : UInt32).toNat = 57 := by decide
  simp only [Char.toNat]
  omega

theorem takeWhile_all_append (p : Char → Bool) {l1 : List Char} (x : Char)
    (l2 : List Char) (h1 : ∀ c ∈ l1, p c = true) (hx : p x = false) :
    (l1 ++ x :: l2).takeWhile p = l1 ∧ (l1 ++ x :: l2).dropWhile p = x :: l2 := by
  induction l1 with
  | nil => simp [List.takeWhile_cons, List.dropWhile_cons, hx]
  | cons a l ih =>
    have ha : p a = true := h1 a (by simp)
    have ih' := ih (fun c hc => h1 c (by simp [hc]))
    simp [List.takeWhile_cons, List.dropWhile_cons, ha, ih'.1, ih'.2]

theorem natOfDigits_fold_lt {ds : List Char} (h : ∀ c ∈ ds, c.isDigit) :
    ∀ a : Nat, ds.foldl (fun a c => a * 10 + (c.toNat - 48)) a <
      (a + 1) * 10 ^ ds.length := by
  induction ds with
  | nil => intro a; simp
  | cons c ds ih =>
    intro a
    have hc : c.isDigit := h c (by simp)
    have hd : c.toNat - 48 ≤ 9 := by
      have := char_isDigit_toNat hc
      omega
    have step := ih (fun d hd => h d (by simp [hd])) (a * 10 + (c.toNat - 48))
    simp only [List.foldl_cons, List.length_cons]
    calc List.foldl (fun a c => a * 10 + (c.toNat - 48)) (a * 10 + (c.toNat - 48)) ds
        < (a * 10 + (c.toNat - 48) + 1) * 10 ^ ds.length := step
      _ ≤ (a + 1) * 10 * 10 ^ ds.length := by
          have : a * 10 + (c.toNat - 48) + 1 ≤ (a + 1) * 10 := by omega
          exact Nat.mul_le_mul_right _ this
      _ = (a + 1) * 10 ^ (ds.length + 1) := by ring

theorem natOfDigits_lt {ds : List Char} (h : ∀ c ∈ ds, c.isDigit) :
    natOfDigits ds < 10 ^ ds.length := by
  simpa [natOfDigits] using natOfDigits_fold_lt h 0

theorem msVal_lt {msp : Option (List Char)} (h : msOk msp) : msVal msp < 1000 := by
  cases msp with
  | none => simp [msVal]
  | some d =>
    obtain ⟨hlen, hdig⟩ := h
    have := natOfDigits_lt hdig
    rw [hlen] at this
    simpa [msVal] using this

theorem msParse_msChars {msp : Option (List Char)} (h : msOk msp) :
    msParse (msChars msp) = some (msVal msp) := by
  cases msp with
  | none => rfl
  | some d =>
    obtain ⟨hlen, hdig⟩ := h
    obtain ⟨d1, d2, d3, rfl⟩ := List.length_eq_three.mp hlen
    have h1 : d1.isDigit = true := hdig d1 (by simp)
    have h2 : d2.isDigit = true := hdig d2 (by simp)
    have h3 : d3.isDigit = true := hdig d3 (by simp)
    simp [msParse, msChars, msVal, h1, h2, h3]

theorem msParse_eq_some {r : List Char} {v : Nat} (h : msParse r = some v) :
    ∃ msp, r = msChars msp ∧ msOk msp ∧ v = msVal msp := by
  match r with
  | [] =>
    refine ⟨none, rfl, trivial, ?_⟩
    simpa [msParse, msVal] using h.symm
  | c :: rest =>
    simp only [msParse] at h
    by_cases hc : c = '.'
    · rw [if_pos hc] at h
      match rest with
      | [d1, d2, d3] =>
        have h' : (if (d1.isDigit && d2.isDigit && d3.isDigit) = true then
            some (natOfDigits [d1, d2, d3]) else none) = some v := h
        by_cases hd : d1.isDigit && d2.isDigit && d3.isDigit
        · rw [if_pos hd] at h'
          simp only [Bool.and_eq_true] at hd
          obtain ⟨⟨hd1, hd2⟩, hd3⟩ := hd
          refine ⟨some [d1, d2, d3], by simp [msChars, hc], ⟨rfl, ?_⟩,
            by simpa [msVal] using h'.symm⟩
          intro x hx
          rcases List.mem_cons.mp hx with rfl | hx
          · exact hd1
          rcases List.mem_cons.mp hx with rfl | hx
          · exact hd2
          rcases List.mem_cons.mp hx with rfl | hx
          · exact hd3
          · simp at hx
        · rw [if_neg hd] at h'; cases h'
      | [] => cases h
      | [d1] => cases h
      | [d1, d2] => cases h
      | d1 :: d2 :: d3 :: d4 :: t => cases h
    · rw [if_neg hc] at h; cases h

theorem timeMatch_of_form {hds mds sds : List Char} {msp : Option (List Char)}
    (hne : hds ≠ []) (hdig : ∀ c ∈ hds, c.isDigit)
    (hml : mds.length = 2) (hmdig : ∀ c ∈ mds, c.isDigit)
    (hsl : sds.length = 2) (hsdig : ∀ c ∈ sds, c.isDigit)
    (hmsok : msOk msp) :
    timeMatch (hds ++ ':' :: (mds ++ ':' :: (sds ++ msChars msp))) =
      some (natOfDigits hds, natOfDigits mds, natOfDigits sds, msVal msp) := by
  obtain ⟨m1, m2, rfl⟩ := List.length_eq_two.mp hml
  obtain ⟨s1, s2, rfl⟩ := List.length_eq_two.mp hsl
  have hm1 : m1.isDigit = true := hmdig m1 (by simp)
  have hm2 : m2.isDigit = true := hmdig m2 (by simp)
  have hs1 : s1.isDigit = true := hsdig s1 (by simp)
  have hs2 : s2.isDigit = true := hsdig s2 (by simp)
  have hsp := takeWhile_all_append Char.isDigit ':'
    (m1 :: m2 :: ':' :: s1 :: s2 :: msChars msp) hdig (by decide)
  have hempty : hds.isEmpty = false := by
    cases hds with
    | nil => exact absurd rfl hne
    | cons a l => rfl
  simp only [List.cons_append, List.nil_append]
  simp only [timeMatch, hsp.1, hsp.2, hempty, Bool.false_eq_true, if_false]
  simp [msParse_msChars hmsok, hm1, hm2, hs1, hs2]

theorem timeMatch_eq_some {cs : List Char} {hq mq sq msq : Nat}
    (h : timeMatch cs = some (hq, mq, sq, msq)) :
    ∃ hds mds sds msp,
      cs = hds ++ ':' :: (mds ++ ':' :: (sds ++ msChars msp)) ∧
      hds ≠ [] ∧ (∀ c ∈ hds, c.isDigit) ∧
      mds.length = 2 ∧ (∀ c ∈ mds, c.isDigit) ∧
      sds.length = 2 ∧ (∀ c ∈ sds, c.isDigit) ∧ msOk msp ∧
      hq = natOfDigits hds ∧ mq = natOfDigits mds ∧
      sq = natOfDigits sds ∧ msq = msVal msp := by
  have hcs : cs.takeWhile Char.isDigit ++ cs.dropWhile Char.isDigit = cs :=
    List.takeWhile_append_dropWhile _ _
  simp only [timeMatch] at h
  by_cases he : (cs.takeWhile Char.isDigit).isEmpty
  · rw [if_pos he] at h; cases h
  · rw [if_neg he] at h
    match hdw : cs.dropWhile Char.isDigit with
    | [] => rw [hdw] at h; cases h
    | [c0] => rw [hdw] at h; cases h
    | [c0, m1] => rw [hdw] at h; cases h
    | [c0, m1, m2] => rw [hdw] at h; cases h
    | [c0, m1, m2, c1] => rw [hdw] at h; cases h
    | [c0, m1, m2, c1, s1] => rw [hdw] at h; cases h
    | c0 :: m1 :: m2 :: c1 :: s1 :: s2 :: rest2 =>
      rw [hdw] at h
      have h' : (if (decide (c0 = ':') && decide (c1 = ':') && m1.isDigit &&
            m2.isDigit && s1.isDigit && s2.isDigit) = true then
          match msParse rest2 with
          | some ms => some (natOfDigits (cs.takeWhile Char.isDigit),
              natOfDigits [m1, m2], natOfDigits [s1, s2], ms)
          | none => none
        else none) = some (hq, mq, sq, msq) := h
      clear h
      by_cases hg : (decide (c0 = ':') && decide (c1 = ':') && m1.isDigit &&
          m2.isDigit && s1.isDigit && s2.isDigit) = true
      · rw [if_pos hg] at h'
        simp only [Bool.and_eq_true, decide_eq_true_eq] at hg
        obtain ⟨⟨⟨⟨⟨hc0, hc1⟩, hm1⟩, hm2⟩, hs1⟩, hs2⟩ := hg
        match hmsp : msParse rest2 with
        | none => rw [hmsp] at h'; cases h'
        | some ms =>
          rw [hmsp] at h'
          obtain ⟨msp, rfl, hok, rfl⟩ := msParse_eq_some hmsp
          injection h' with h
          simp only [Prod.mk.injEq] at h
          obtain ⟨h1, h2, h3, h4⟩ := h
          subst h1; subst h2; subst h3; subst h4
          refine ⟨cs.takeWhile Char.isDigit, [m1, m2], [s1, s2], msp, ?_, ?_, ?_,
            rfl, ?_, rfl, ?_, hok, rfl, rfl, rfl, rfl⟩
          · subst hc0 hc1
            conv_lhs => rw [← hcs, hdw]
            simp
          · intro hnil
            rw [hnil] at he
            exact he rfl
          · intro c hc
            exact List.mem_takeWhile_imp hc
          · intro c hc
            rcases List.mem_cons.mp hc with rfl | hc
            · exact hm1
            rcases List.mem_cons.mp hc with rfl | hc
            · exact hm2
            · simp at hc
          · intro c hc
            rcases List.mem_cons.mp hc with rfl | hc
            · exact hs1
            rcases List.mem_cons.mp hc with rfl | hc
            · exact hs2
            · simp at hc
      · rw [if_neg hg] at h'; cases h'

theorem parseTime_of_form {s : String} {hds mds sds : List Char}
    {msp : Option (List Char)} (hf : IsTimeForm s hds mds sds msp)
    (hm : natOfDigits mds < 60) (hs : natOfDigits sds < 60) :
    parseTime s = (natOfDigits hds * 3600 + natOfDigits mds * 60 +
      natOfDigits sds) * 1000 + msVal msp := by
  obtain ⟨hdata, hne, hdig, hml, hmdig, hsl, hsdig, hmsok⟩ := hf
  have hsne : s ≠ "" := by
    intro h0
    subst h0
    have : ([] : List Char) = hds ++ ':' :: (mds ++ ':' :: (sds ++ msChars msp)) := hdata
    simp at this
  have hms := msVal_lt hmsok
  simp only [parseTime, if_neg hsne, hdata,
    timeMatch_of_form hne hdig hml hmdig hsl hsdig hmsok]
  rw [if_neg (by omega)]

theorem parseTime_of_form_out_of_range {s : String} {hds mds sds : List Char}
    {msp : Option (List Char)} (hf : IsTimeForm s hds mds sds msp)
    (hrange : 60 ≤ natOfDigits mds ∨ 60 ≤ natOfDigits sds) :
    parseTime s = 0 := by
  obtain ⟨hdata, hne, hdig, hml, hmdig, hsl, hsdig, hmsok⟩ := hf
  have hsne : s ≠ "" := by
    intro h0
    subst h0
    have : ([] : List Char) = hds ++ ':' :: (mds ++ ':' :: (sds ++ msChars msp)) := hdata
    simp at this
  simp only [parseTime, if_neg hsne, hdata,
    timeMatch_of_form hne hdig hml hmdig hsl hsdig hmsok]
  rw [if_pos (by omega)]

theorem parseTime_of_no_form {s : String}
    (h : ∀ hds mds sds msp, ¬ IsTimeForm s hds mds sds msp) : parseTime s = 0 := by
  by_cases hse : s = ""
  · simp [parseTime, hse]
  · simp only [parseTime, if_neg hse]
    match htm : timeMatch s.data with
    | none => rfl
    | some (hq, mq, sq, msq) =>
      obtain ⟨hds, mds, sds, msp, hdata, hne, hdig, hml, hmdig, hsl, hsdig,
        hok, _, _, _, _⟩ := timeMatch_eq_some htm
      exact absurd ⟨hdata, hne, hdig, hml, hmdig, hsl, hsdig, hok⟩
        (h hds mds sds msp)

/-- No valid time string contains a dash: its characters are digits, `:`
and `.` only. -/
theorem no_dash_of_form {s : String} {hds mds sds : List Char}
    {msp : Option (List Char)} (hf : IsTimeForm s hds mds sds msp) :
    '-' ∉ s.data := by
  obtain ⟨hdata, _, hdig, _, hmdig, _, hsdig, hmsok⟩ := hf
  rw [hdata]
  intro hmem
  simp only [List.mem_append, List.mem_cons] at hmem
  have hdash : ('-').isDigit = false := by decide
  rcases hmem with h | h | h | h | h | h
  · exact absurd (hdig _ h) (by simp [hdash])
  · cases h
  · exact absurd (hmdig _ h) (by simp [hdash])
  · cases h
  · exact absurd (hsdig _ h) (by simp [hdash])
  · cases msp with
    | none => simp [msChars] at h
    | some d =>
      obtain ⟨_, hddig⟩ := hmsok
      rcases List.mem_cons.mp h with h | h
      · cases h
      · exact absurd (hddig _ h) (by simp [hdash])

/-- Every `formatTime` output contains a dash (the date separators are
always present, whatever the zone offset). -/
theorem dash_mem_formatTime (offsetMin ms : Int) :
    '-' ∈ (formatTime offsetMin ms).data := by
  have hd : '-' ∈ ("-" : String).data := by decide
  simp only [formatTime, String.data_append, List.mem_append]
  tauto

/-! # Claims -/

/-- C3: `parseTime` returns `((H*3600 + M*60 + S)*1000) + ms` on strings
matching the strict pattern `H+:mm:ss(.SSS)?` with in-range components,
and `0` for every other string (no decomposition, or minutes/seconds out
of range; a matched three-digit milliseconds group is always `< 1000`),
including the concrete values from the spec. -/
theorem parseTime_strict_pattern :
    (∀ (s : String) (hds mds sds : List Char) (msp : Option (List Char)),
        IsTimeForm s hds mds sds msp →
        natOfDigits mds < 60 → natOfDigits sds < 60 →
        parseTime s = (natOfDigits hds * 3600 + natOfDigits mds * 60 +
          natOfDigits sds) * 1000 + msVal msp) ∧
    (∀ (s : String) (hds mds sds : List Char) (msp : Option (List Char)),
        IsTimeForm s hds mds sds msp →
        60 ≤ natOfDigits mds ∨ 60 ≤ natOfDigits sds → parseTime s = 0) ∧
    (∀ s : String,
        (∀ hds mds sds msp, ¬ IsTimeForm s hds mds sds msp) → parseTime s = 0) ∧
    parseTime "0:50:27.083" = 3027083 ∧ parseTime "40:08:40" = 144520000 ∧
    parseTime "25:61:61" = 0 ∧ parseTime "" = 0 :=
  ⟨fun _ _ _ _ _ hf hm hs => parseTime_of_form hf hm hs,
   fun _ _ _ _ _ hf hr => parseTime_of_form_out_of_range hf hr,
   fun _ h => parseTime_of_no_form h,
   by decide, by decide, by decide, by decide⟩

/-- C3 witness: the hypotheses of the characterisation hold at the
concrete strings `0:50:27.083` (a full match) and `25:61:61` (minutes and
seconds out of range). -/
theorem parseTime_strict_pattern_witness :
    (IsTimeForm "0:50:27.083" ['0'] ['5', '0'] ['2', '7'] (some ['0', '8', '3']) ∧
      natOfDigits ['5', '0'] < 60 ∧ natOfDigits ['2', '7'] < 60 ∧
      parseTime "0:50:27.083" =
        (natOfDigits ['0'] * 3600 + natOfDigits ['5', '0'] * 60 +
          natOfDigits ['2', '7']) * 1000 + msVal (some ['0', '8', '3'])) ∧
    (IsTimeForm "25:61:61" ['2', '5'] ['6', '1'] ['6', '1'] none ∧
      60 ≤ natOfDigits ['6', '1'] ∧ parseTime "25:61:61" = 0) :=
  ⟨⟨by decide, by decide, by decide,
    parseTime_strict_pattern.1 "0:50:27.083" ['0'] ['5', '0'] ['2', '7']
      (some ['0', '8', '3']) (by decide) (by decide) (by decide)⟩,
   ⟨by decide, by decide,
    parseTime_strict_pattern.2.1 "25:61:61" ['2', '5'] ['6', '1'] ['6', '1']
      none (by decide) (Or.inl (by decide))⟩⟩

/-- C2 counterexample: `formatTime` is date-fns `formatISO`, so
`formatTime(parseTime('0:50:27.083'))` (at UTC) is the ISO date-time
`1970-01-01T00:50:27Z` — not the input string, and not its zero-padded
`HH:mm:ss.SSS` form either; the output has no milliseconds component. -/
theorem formatTime_roundtrip_fails_at_0_50_27 :
    formatTime 0 (parseTime "0:50:27.083") = "1970-01-01T00:50:27Z" ∧
    formatTime 0 (parseTime "0:50:27.083") ≠ "0:50:27.083" ∧
    formatTime 0 (parseTime "0:50:27.083") ≠ "00:50:27.083" :=
  ⟨by decide, by decide, by decide⟩

/-- C2 (amended): `formatTime` renders a full ISO-8601 date-time (date
part with dash separators, no milliseconds), so for every valid
`H:mm:ss.SSS` string and every zone offset the round-trip
`formatTime(parseTime(s))` never returns `s`. -/
theorem formatTime_parseTime_no_roundtrip :
    ∀ (offsetMin : Int) (s : String) (hds mds sds d : List Char),
      IsTimeForm s hds mds sds (some d) →
      formatTime offsetMin (parseTime s) ≠ s := by
  intro offsetMin s hds mds sds d hf heq
  have h1 := dash_mem_formatTime offsetMin (parseTime s)
  rw [heq] at h1
  exact no_dash_of_form hf h1

/-- C2 witness: the amended statement applies to the concrete valid string
`0:50:27.083` at UTC. -/
theorem formatTime_parseTime_no_roundtrip_witness :
    IsTimeForm "0:50:27.083" ['0'] ['5', '0'] ['2', '7'] (some ['0', '8', '3']) ∧
    formatTime 0 (parseTime "0:50:27.083") ≠ "0:50:27.083" :=
  ⟨by decide,
   formatTime_parseTime_no_roundtrip 0 "0:50:27.083" ['0'] ['5', '0']
     ['2', '7'] ['0', '8', '3'] (by decide)⟩

/-- C7: `calculateDuration(start, end)` is
`max(0, parseTime(end) - parseTime(start))`, hence never negative, with
the spec's concrete value; and every `AudioClip` produced by the SMIL
audio-clip extraction carries `duration = max(0, parseTime(clipEnd) -
parseTime(clipBegin))`. -/
theorem calculateDuration_spec :
    (∀ startTime endTime, calculateDuration startTime endTime =
        max 0 ((parseTime endTime : Int) - (parseTime startTime : Int))) ∧
    (∀ startTime endTime, 0 ≤ calculateDuration startTime endTime) ∧
    calculateDuration "0:00:10.500" "0:00:15.750" = 5250 ∧
    (∀ element clip, extractAudioClip element = some clip →
        clip.duration =
          max 0 ((parseTime clip.clipEnd : Int) - (parseTime clip.clipBegin : Int))) := by
  refine ⟨fun _ _ => rfl, fun _ _ => le_max_left 0 _, by decide, ?_⟩
  intro element clip h
  match hfind : findElemN "audio" element with
  | none =>
    simp only [extractAudioClip, hfind] at h
    exact Option.noConfusion h
  | some audioElement =>
    simp only [extractAudioClip, hfind] at h
    match h1 : getAttribute audioElement "src",
        h2 : getAttribute audioElement "clipBegin",
        h3 : getAttribute audioElement "clipEnd" with
    | some src, some clipBegin, some clipEnd =>
      simp only [h1, h2, h3] at h
      by_cases hg : src ≠ "" ∧ clipBegin ≠ "" ∧ clipEnd ≠ ""
      · rw [if_pos hg] at h
        injection h with h
        subst h
        rfl
      · rw [if_neg hg] at h; cases h
    | none, _, _ =>
      simp only [h1, h2, h3] at h
      exact Option.noConfusion h
    | some _, none, _ =>
      simp only [h1, h2, h3] at h
      exact Option.noConfusion h
    | some _, some _, none =>
      simp only [h1, h2, h3] at h
      exact Option.noConfusion h

/-- C7 witness: the derived-duration clause applies to the concrete `par`
element of the SMIL example. -/
theorem calculateDuration_spec_witness :
    extractAudioClip parClipTree =
      some ⟨"audio01.mp3", "0:00:10.500", "0:00:15.750", 5250⟩ ∧
    (⟨"audio01.mp3", "0:00:10.500", "0:00:15.750", 5250⟩ : AudioClip).duration =
      max 0 ((parseTime "0:00:15.750" : Int) - (parseTime "0:00:10.500" : Int)) :=
  ⟨rfl, calculateDuration_spec.2.2.2 parClipTree _ rfl⟩

/-! ## Association-list lemmas (JS object semantics) -/

theorem alookup_replaceKey_self {α : Type} {md : List (String × α)}
    {k : String} (v : α) (h : (alookup md k).isSome) :
    alookup (replaceKey md k v) k = some v := by
  induction md with
  | nil => simp [alookup] at h
  | cons p rest ih =>
    obtain ⟨k1, v1⟩ := p
    by_cases hk : k1 = k
    · rw [replaceKey, if_pos hk]
      simp [alookup]
    · rw [replaceKey, if_neg hk]
      rw [alookup, if_neg hk] at h ⊢
      exact ih h

theorem alookup_replaceKey_ne {α : Type} {md : List (String × α)}
    {k k' : String} (v : α) (h : k' ≠ k) :
    alookup (replaceKey md k v) k' = alookup md k' := by
  have hkk : ¬ k = k' := fun he => h he.symm
  induction md with
  | nil => rfl
  | cons p rest ih =>
    obtain ⟨k1, v1⟩ := p
    by_cases hk : k1 = k
    · rw [replaceKey, if_pos hk]
      rw [alookup, if_neg hkk, alookup, if_neg (hk ▸ hkk), ih]
    · rw [replaceKey, if_neg hk]
      rw [alookup, alookup, ih]

theorem alookup_append_self {α : Type} {md : List (String × α)}
    {k : String} (v : α) (h : alookup md k = none) :
    alookup (md ++ [(k, v)]) k = some v := by
  induction md with
  | nil => simp [alookup]
  | cons p rest ih =>
    obtain ⟨k1, v1⟩ := p
    by_cases hk : k1 = k
    · rw [alookup, if_pos hk] at h
      cases h
    · rw [alookup, if_neg hk] at h
      rw [List.cons_append, alookup, if_neg hk]
      exact ih h

theorem alookup_append_ne {α : Type} {md : List (String × α)}
    {k k' : String} (v : α) (h : k' ≠ k) :
    alookup (md ++ [(k, v)]) k' = alookup md k' := by
  have hkk : ¬ k = k' := fun he => h he.symm
  induction md with
  | nil => simp [alookup, hkk]
  | cons p rest ih =>
    obtain ⟨k1, v1⟩ := p
    rw [List.cons_append, alookup, alookup, ih]

theorem alookup_objSet_self {α : Type} (md : List (String × α))
    (k : String) (v : α) : alookup (objSet md k v) k = some v := by
  unfold objSet
  by_cases h : (alookup md k).isSome
  · rw [if_pos h]
    exact alookup_replaceKey_self v h
  · rw [if_neg h]
    exact alookup_append_self v (Option.not_isSome_iff_eq_none.mp h)

theorem alookup_objSet_ne {α : Type} (md : List (String × α))
    {k k' : String} (v : α) (h : k' ≠ k) :
    alookup (objSet md k v) k' = alookup md k' := by
  unfold objSet
  by_cases hs : (alookup md k).isSome
  · rw [if_pos hs]
    exact alookup_replaceKey_ne v h
  · rw [if_neg hs]
    exact alookup_append_ne v h

theorem alookup_metaUpsert_self (md : List (String × MetaValue))
    (k v : String) :
    alookup (metaUpsert md k v) k = some (pushVal (alookup md k) v) := by
  match h : alookup md k with
  | none =>
    unfold metaUpsert
    rw [h]
    exact alookup_append_self (MetaValue.str v) h
  | some (.str s) =>
    unfold metaUpsert
    rw [h]
    exact alookup_replaceKey_self (MetaValue.seq [s, v]) (by simp [h])
  | some (.seq l) =>
    unfold metaUpsert
    rw [h]
    exact alookup_replaceKey_self (MetaValue.seq (l ++ [v])) (by simp [h])
  | some .undef =>
    unfold metaUpsert
    rw [h]
    exact alookup_replaceKey_self (MetaValue.str v) (by simp [h])

theorem alookup_metaUpsert_ne (md : List (String × MetaValue))
    {k k' : String} (v : String) (h : k' ≠ k) :
    alookup (metaUpsert md k v) k' = alookup md k' := by
  unfold metaUpsert
  match halt : alookup md k with
  | none => exact alookup_append_ne _ h
  | some (.str s) => exact alookup_replaceKey_ne _ h
  | some (.seq l) => exact alookup_replaceKey_ne _ h
  | some .undef => exact alookup_replaceKey_ne _ h

/-! ## `extractMetadata` characterisation -/

theorem alookup_foldl_extract (k : String) :
    ∀ (metas : List XNode) (md : List (String × MetaValue)),
      alookup (metas.foldl extractMetaStep md) k =
        (metaContents k metas).foldl (fun o v => some (pushVal o v))
          (alookup md k) := by
  intro metas
  induction metas with
  | nil => intro md; rfl
  | cons m rest ih =>
    intro md
    rw [List.foldl_cons]
    match hn : getAttribute m "name", hc : getAttribute m "content" with
    | some n, some c =>
      by_cases htr : n ≠ "" ∧ c ≠ ""
      · by_cases hnk : n = k
        · subst hnk
          have hstep : extractMetaStep md m = metaUpsert md n c := by
            simp [extractMetaStep, hn, hc, htr]
          have hcont : metaContents n (m :: rest) = c :: metaContents n rest := by
            simp [metaContents, List.filterMap_cons, hn, hc, htr]
          rw [hstep, hcont, ih, alookup_metaUpsert_self, List.foldl_cons]
        · have hstep : extractMetaStep md m = metaUpsert md n c := by
            simp [extractMetaStep, hn, hc, htr]
          have hcont : metaContents k (m :: rest) = metaContents k rest := by
            simp [metaContents, List.filterMap_cons, hn, hc, hnk]
          rw [hstep, hcont, ih, alookup_metaUpsert_ne _ _ (fun he => hnk he.symm)]
      · have hstep : extractMetaStep md m = md := by
          simp only [extractMetaStep, hn, hc, if_neg htr]
        have hcont : metaContents k (m :: rest) = metaContents k rest := by
          rcases Decidable.not_and_iff_or_not.mp htr with h0 | h0 <;>
            simp_all [metaContents, List.filterMap_cons, hn, hc]
        rw [hstep, hcont, ih]
    | some n, none =>
      have hstep : extractMetaStep md m = md := by
        simp only [extractMetaStep, hn, hc]
      have hcont : metaContents k (m :: rest) = metaContents k rest := by
        simp [metaContents, List.filterMap_cons, hn, hc]
      rw [hstep, hcont, ih]
    | none, _ =>
      have hstep : extractMetaStep md m = md := by
        simp only [extractMetaStep, hn]
      have hcont : metaContents k (m :: rest) = metaContents k rest := by
        simp [metaContents, List.filterMap_cons, hn]
      rw [hstep, hcont, ih]

theorem foldl_pushVal_seq :
    ∀ (vs : List String) (l : List String),
      vs.foldl (fun o v => some (pushVal o v)) (some (.seq l)) =
        some (.seq (l ++ vs)) := by
  intro vs
  induction vs with
  | nil => intro l; simp
  | cons v vs ih =>
    intro l
    rw [List.foldl_cons]
    show vs.foldl _ (some (MetaValue.seq (l ++ [v]))) = _
    rw [ih]
    simp

theorem foldl_pushVal_none (vs : List String) :
    vs.foldl (fun o v => some (pushVal o v)) none = collapseContents vs := by
  match vs with
  | [] => rfl
  | [v] => rfl
  | v :: w :: ws =>
    rw [List.foldl_cons, List.foldl_cons]
    show ws.foldl _ (some (MetaValue.seq [v, w])) = _
    rw [foldl_pushVal_seq]
    rfl

/-- C6: for every input sequence and key, the stored value is the scalar
first content when the key occurs once, and the ordered sequence of all
its contents (first-encountered first) when it occurs more than once; in
particular two metas with the same name and different contents give the
two-element sequence. -/
theorem extractMetadata_repeat_promotes :
    (∀ (metaElements : List XNode) (k : String),
        alookup (extractMetadata metaElements) k =
          collapseContents (metaContents k metaElements)) ∧
    extractMetadata dupMetas = [("dc:format", .seq ["one", "two"])] := by
  refine ⟨?_, rfl⟩
  intro metas k
  show alookup (metas.foldl extractMetaStep []) k = _
  rw [alookup_foldl_extract]
  exact foldl_pushVal_none _

/-! ## Key-set lemmas and the OPF metadata merge -/

theorem alookup_eq_none_iff_not_mem {α : Type} {md : List (String × α)}
    {k : String} : alookup md k = none ↔ k ∉ md.map Prod.fst := by
  induction md with
  | nil => simp [alookup]
  | cons p rest ih =>
    obtain ⟨k1, v1⟩ := p
    by_cases hk : k1 = k
    · simp [alookup, hk]
    · simp [alookup, if_neg hk, ih, Ne.symm hk]

theorem map_fst_replaceKey {α : Type} (md : List (String × α))
    (k : String) (v : α) :
    (replaceKey md k v).map Prod.fst = md.map Prod.fst := by
  induction md with
  | nil => rfl
  | cons p rest ih =>
    obtain ⟨k1, v1⟩ := p
    by_cases hk : k1 = k
    · subst hk
      rw [replaceKey, if_pos rfl]
      simp [ih]
    · rw [replaceKey, if_neg hk]
      simp [ih]

theorem nodup_keys_foldl_extract :
    ∀ (metas : List XNode) (md : List (String × MetaValue)),
      (md.map Prod.fst).Nodup →
      ((metas.foldl extractMetaStep md).map Prod.fst).Nodup := by
  intro metas
  induction metas with
  | nil => intro md h; exact h
  | cons m rest ih =>
    intro md h
    rw [List.foldl_cons]
    refine ih _ ?_
    match hn : getAttribute m "name", hc : getAttribute m "content" with
    | some n, some c =>
      by_cases htr : n ≠ "" ∧ c ≠ ""
      · have hstep : extractMetaStep md m = metaUpsert md n c := by
          simp [extractMetaStep, hn, hc, htr]
        rw [hstep]
        match halt : alookup md n with
        | none =>
          have hnot : n ∉ md.map Prod.fst := alookup_eq_none_iff_not_mem.mp halt
          unfold metaUpsert
          rw [halt]
          simp [List.nodup_append, h, hnot]
        | some (.str s) =>
          unfold metaUpsert
          rw [halt]
          simpa [map_fst_replaceKey] using h
        | some (.seq l) =>
          unfold metaUpsert
          rw [halt]
          simpa [map_fst_replaceKey] using h
        | some .undef =>
          unfold metaUpsert
          rw [halt]
          simpa [map_fst_replaceKey] using h
      · have hstep : extractMetaStep md m = md := by
          simp only [extractMetaStep, hn, hc, if_neg htr]
        rw [hstep]
        exact h
    | some n, none =>
      have hstep : extractMetaStep md m = md := by
        simp only [extractMetaStep, hn, hc]
      rw [hstep]
      exact h
    | none, _ =>
      have hstep : extractMetaStep md m = md := by
        simp only [extractMetaStep, hn]
      rw [hstep]
      exact h

theorem extractMetadata_keys_nodup (metas : List XNode) :
    ((extractMetadata metas).map Prod.fst).Nodup :=
  nodup_keys_foldl_extract metas [] (by simp)

theorem alookup_foldl_objSet_not_mem {α : Type} {k : String} :
    ∀ (xl : List (String × α)) (md : List (String × α)),
      k ∉ xl.map Prod.fst →
      alookup (xl.foldl (fun m p => objSet m p.1 p.2) md) k = alookup md k := by
  intro xl
  induction xl with
  | nil => intro md _; rfl
  | cons p rest ih =>
    intro md h
    simp only [List.map_cons, List.mem_cons, not_or] at h
    rw [List.foldl_cons, ih _ h.2, alookup_objSet_ne _ _ h.1]

theorem alookup_foldl_objSet_of_lookup {α : Type} {k : String} {v : α} :
    ∀ (xl : List (String × α)) (md : List (String × α)),
      (xl.map Prod.fst).Nodup → alookup xl k = some v →
      alookup (xl.foldl (fun m p => objSet m p.1 p.2) md) k = some v := by
  intro xl
  induction xl with
  | nil => intro md _ h; cases h
  | cons p rest ih =>
    intro md hnd hv
    obtain ⟨k1, v1⟩ := p
    simp only [List.map_cons, List.nodup_cons] at hnd
    rw [List.foldl_cons]
    by_cases hk : k1 = k
    · subst hk
      simp only [alookup, if_pos rfl] at hv
      injection hv with hv
      subst hv
      rw [alookup_foldl_objSet_not_mem rest _ hnd.1]
      exact alookup_objSet_self md k1 v1
    · simp only [alookup, if_neg hk] at hv
      exact ih _ hnd.2 hv

/-- C5: whenever a key is carried by an `x-metadata` `<meta>` element, the
metadata `parseOpf` returns holds that `<meta>` value for the key — the
`<meta>` merge is applied after the Dublin Core values and overrides
them. -/
theorem parseOpf_meta_overrides_dc :
    ∀ (tree : List XNode) (k : String) (v : MetaValue) (data : OpfData),
      parseOpf tree = .ok data →
      alookup (extractMetadata (selectChildAll "x-metadata"
        (fun n => isElemNamed n "meta") tree)) k = some v →
      alookup data.metadata k = some v := by
  intro tree k v data hok hx
  match hpkg : findElemL "package" tree with
  | none =>
    simp only [parseOpf, hpkg] at hok
    exact Except.noConfusion hok
  | some pkg =>
    simp only [parseOpf, hpkg] at hok
    injection hok with hok
    subst hok
    exact alookup_foldl_objSet_of_lookup _ _ (extractMetadata_keys_nodup _) hx

/-- C5 witness: on the concrete OPF tree where `title` is carried both as
`dc:Title` (`A`) and as a `<meta name="title">` (`B`), the parsed metadata
holds `B`. -/
theorem parseOpf_meta_overrides_dc_witness :
    parseOpf opfOverlapTree = .ok opfOverlapData ∧
    alookup (extractMetadata (selectChildAll "x-metadata"
      (fun n => isElemNamed n "meta") opfOverlapTree)) "title" =
        some (.str "B") ∧
    alookup opfOverlapData.metadata "title" = some (.str "B") :=
  ⟨rfl, rfl,
   parseOpf_meta_overrides_dc opfOverlapTree "title" (.str "B")
     opfOverlapData rfl rfl⟩

/-! ## Tree splitter: the deep traversal never changes the state, and the
direct-child scan computes the specified parts -/

mutual
theorem visitDeep_eq (test : XNode → Bool) :
    (st : SplitSt) → (n : XNode) → visitDeep test st n = st
  | st, .element nm attrs cs => by
    rw [visitDeep]
    by_cases h : test (.element nm attrs cs)
    · rw [if_pos h]
    · rw [if_neg h]
      exact visitDeepL_eq test st cs
  | st, .text v => by
    rw [visitDeep.eq_def]
    by_cases h : test (.text v)
    · rw [if_pos h]
    · rw [if_neg h]
  | st, .comment v => by
    rw [visitDeep.eq_def]
    by_cases h : test (.comment v)
    · rw [if_pos h]
    · rw [if_neg h]

theorem visitDeepL_eq (test : XNode → Bool) :
    (st : SplitSt) → (l : List XNode) → visitDeepL test st l = st
  | st, [] => by rw [visitDeepL]
  | st, c :: rest => by
    rw [visitDeepL, visitDeep_eq test st c]
    exact visitDeepL_eq test st rest
end

theorem splitGo_spec (test : XNode → Bool) (full : List XNode) :
    ∀ (cur : List XNode) (i : Nat) (parts : List (List XNode)) (last : Nat),
      full.drop i = cur → last ≤ i → i ≤ full.length →
      finalizeParts full (splitGo test full i cur ⟨parts, last⟩) =
        parts ++ splitPartsSpec test cur ((full.drop last).take (i - last)) := by
  intro cur
  induction cur with
  | nil =>
    intro i parts last hdrop hle hlen
    have hi : i = full.length := by
      have := congrArg List.length hdrop
      simp only [List.length_drop, List.length_nil] at this
      omega
    subst hi
    show finalizeParts full ⟨parts, last⟩ = _
    by_cases hl : last < full.length
    · have hdl : (full.drop last).take (full.length - last) = full.drop last := by
        rw [← List.length_drop]
        exact List.take_length _
      have hne : (full.drop last).isEmpty = false := by
        rw [List.isEmpty_eq_false]
        intro h0
        rw [List.drop_eq_nil_iff] at h0
        omega
      rw [finalizeParts, if_pos hl, splitPartsSpec, hdl, hne]
      simp
    · have h0 : full.drop last = [] := by
        rw [List.drop_eq_nil_iff]
        omega
      rw [finalizeParts, if_neg hl, splitPartsSpec, h0]
      simp
  | cons c rest ih =>
    intro i parts last hdrop hle hlen
    have hlt : i < full.length := by
      have := congrArg List.length hdrop
      simp only [List.length_drop, List.length_cons] at this
      omega
    have hdrop1 : full.drop (i + 1) = rest := by
      have h2 : (full.drop i).drop 1 = full.drop (i + 1) := List.drop_drop 1 i full
      rw [← h2, hdrop]
      rfl
    have hget : full[i]? = some c := by
      have h3 := List.getElem?_drop full i 0
      rw [hdrop] at h3
      simpa using h3.symm
    have htake : (full.drop last).take (i + 1 - last) =
        (full.drop last).take (i - last) ++ [c] := by
      have h1 : i + 1 - last = (i - last) + 1 := by omega
      rw [h1, List.take_succ, List.getElem?_drop]
      have h2 : last + (i - last) = i := by omega
      rw [h2, hget]
      rfl
    by_cases hc : test c
    · rw [splitGo, if_pos hc]
      rw [ih (i + 1) _ (i + 1) hdrop1 (le_refl _) hlt]
      rw [splitPartsSpec, if_pos hc, htake]
      simp
    · rw [splitGo, if_neg hc, visitDeep_eq]
      rw [ih (i + 1) parts last hdrop1 (by omega) hlt]
      rw [splitPartsSpec, if_neg hc, htake]

/-- The parts returned by `splitDaisyTreeByTag` are exactly the
specification's accumulate-and-seal decomposition of the direct child
list. -/
theorem splitDaisy_parts_eq (tree : XNode) (test : XNode → Bool) :
    (splitDaisyTreeByTag tree test).parts =
      splitPartsSpec test (childrenOf tree) [] := by
  rw [splitDaisyTreeByTag]
  by_cases he : (childrenOf tree).isEmpty
  · rw [if_pos he, List.isEmpty_iff.mp he]
    rfl
  · rw [if_neg he]
    show finalizeParts _ _ = _
    rw [splitGo_spec test (childrenOf tree) (childrenOf tree) 0 [] 0
      (List.drop_zero _) (le_refl 0) (Nat.zero_le _)]
    simp

theorem splitPartsSpec_flatten (test : XNode → Bool) :
    ∀ (cs acc : List XNode), (splitPartsSpec test cs acc).flatten = acc ++ cs := by
  intro cs
  induction cs with
  | nil =>
    intro acc
    rw [splitPartsSpec]
    by_cases ha : acc.isEmpty
    · rw [if_pos ha, List.isEmpty_iff.mp ha]
      rfl
    · rw [if_neg ha]
      simp
  | cons c rest ih =>
    intro acc
    rw [splitPartsSpec]
    by_cases hc : test c
    · rw [if_pos hc]
      simp [ih]
    · rw [if_neg hc]
      simp [ih]

/-- C1: `splitDaisyTreeByTag` looks only at direct children: its parts are
exactly the spec decomposition of the direct-child sequence (a part
accumulates children up to and including the next matching child, trailing
children form a final part, no match gives one part, no children give no
part — a deeper match never creates a boundary); on children
`[a, p(x), b, p(y), c]` with a `p` test it returns the three parts
`[a,p(x)]`, `[b,p(y)]`, `[c]`, and a `p` nested inside a non-matching
child leaves a single part. -/
theorem splitDaisyTreeByTag_direct_children :
    (∀ (tree : XNode) (test : XNode → Bool),
        (splitDaisyTreeByTag tree test).parts =
          splitPartsSpec test (childrenOf tree) []) ∧
    (splitDaisyTreeByTag splitExTree pTest).parts =
      [[.element "a" [] [], .element "p" [("id", "x")] []],
       [.element "b" [] [], .element "p" [("id", "y")] []],
       [.element "c" [] []]] ∧
    (splitDaisyTreeByTag nestedPTree pTest).parts =
      [[.element "div" [] [.element "p" [("id", "inner")] []],
        .element "span" [] []]] ∧
    (splitDaisyTreeByTag (.element "empty" [] []) pTest).parts = [] := by
  refine ⟨splitDaisy_parts_eq, ?_, ?_, ?_⟩
  · rw [splitDaisy_parts_eq]; rfl
  · rw [splitDaisy_parts_eq]; rfl
  · rw [splitDaisy_parts_eq]; rfl

/-- C10: the parts are an exact ordered partition of the direct-child
sequence — concatenated in order they give back the children — and
`totalParts` is the length of `parts`. -/
theorem splitDaisyTreeByTag_partition :
    ∀ (tree : XNode) (test : XNode → Bool),
      (splitDaisyTreeByTag tree test).parts.flatten = childrenOf tree ∧
      (splitDaisyTreeByTag tree test).totalParts =
        (splitDaisyTreeByTag tree test).parts.length := by
  intro tree test
  constructor
  · rw [splitDaisy_parts_eq, splitPartsSpec_flatten]
    rfl
  · rw [splitDaisyTreeByTag]
    by_cases he : (childrenOf tree).isEmpty
    · rw [if_pos he]
      rfl
    · rw [if_neg he]

/-! ## Paginator -/

theorem paginate_eq_map (tree : XNode) (itemsPerPage : Nat)
    (tagName : List String) (basePath : String)
    (h : ¬ (splitDaisyTreeByTag tree (elemTestOf tagName)).parts.isEmpty = true) :
    paginateDaisyTree tree itemsPerPage tagName basePath =
      (List.range
        (((splitDaisyTreeByTag tree (elemTestOf tagName)).parts.length +
          itemsPerPage - 1) / itemsPerPage)).map
        (mkPageAt (splitDaisyTreeByTag tree (elemTestOf tagName)).parts
          itemsPerPage basePath
          (((splitDaisyTreeByTag tree (elemTestOf tagName)).parts.length +
            itemsPerPage - 1) / itemsPerPage)) := by
  rw [paginateDaisyTree, if_neg h]
  rfl

/-- C8: with a positive page size, `paginateDaisyTree` returns exactly
`ceil(partCount / itemsPerPage)` pages (zero parts give zero pages, not
one empty page); 0-based page `i` holds `itemsPerPage` parts except for a
possibly shorter last page; its navigation URLs are formed as
`basePath ++ pageNumber`, with `prev`/`first` absent exactly on page 1 and
`next`/`last` absent exactly on the final page (so `next` on page `i` is
`basePath ++ (i+2)` before the last page). -/
theorem paginateDaisyTree_pages :
    ∀ (tree : XNode) (itemsPerPage : Nat) (tagName : List String)
      (basePath : String), 0 < itemsPerPage →
    (paginateDaisyTree tree itemsPerPage tagName basePath).length =
      ((splitDaisyTreeByTag tree (elemTestOf tagName)).parts.length +
        itemsPerPage - 1) / itemsPerPage ∧
    ∀ (i : Nat)
      (h : i < (paginateDaisyTree tree itemsPerPage tagName basePath).length),
      ((paginateDaisyTree tree itemsPerPage tagName basePath)[i].data.length =
        min itemsPerPage
          ((splitDaisyTreeByTag tree (elemTestOf tagName)).parts.length -
            i * itemsPerPage)) ∧
      (paginateDaisyTree tree itemsPerPage tagName basePath)[i].currentPage = i + 1 ∧
      (paginateDaisyTree tree itemsPerPage tagName basePath)[i].lastPage =
        (paginateDaisyTree tree itemsPerPage tagName basePath).length ∧
      (paginateDaisyTree tree itemsPerPage tagName basePath)[i].url.current =
        basePath ++ toString (i + 1) ∧
      (paginateDaisyTree tree itemsPerPage tagName basePath)[i].url.prev =
        (if i = 0 then none else some (basePath ++ toString i)) ∧
      (paginateDaisyTree tree itemsPerPage tagName basePath)[i].url.first =
        (if i = 0 then none else some (basePath ++ "1")) ∧
      (paginateDaisyTree tree itemsPerPage tagName basePath)[i].url.next =
        (if i + 1 = (paginateDaisyTree tree itemsPerPage tagName basePath).length
         then none
         else some (basePath ++ toString (i + 2))) ∧
      (paginateDaisyTree tree itemsPerPage tagName basePath)[i].url.last =
        (if i + 1 = (paginateDaisyTree tree itemsPerPage tagName basePath).length
         then none
         else some (basePath ++ toString
          (paginateDaisyTree tree itemsPerPage tagName basePath).length)) := by
  intro tree ipp tagName basePath hipp
  by_cases hparts : (splitDaisyTreeByTag tree (elemTestOf tagName)).parts.isEmpty = true
  · constructor
    · rw [paginateDaisyTree, if_pos hparts, List.isEmpty_iff.mp hparts]
      simp [Nat.div_eq_of_lt (by omega : ipp - 1 < ipp)]
    · intro i h
      rw [paginateDaisyTree, if_pos hparts] at h
      simp at h
  · have hlen : (paginateDaisyTree tree ipp tagName basePath).length =
        ((splitDaisyTreeByTag tree (elemTestOf tagName)).parts.length +
          ipp - 1) / ipp := by
      rw [paginate_eq_map tree ipp tagName basePath hparts]
      simp
    refine ⟨hlen, ?_⟩
    intro i h
    have hi : i < ((splitDaisyTreeByTag tree (elemTestOf tagName)).parts.length +
        ipp - 1) / ipp := hlen ▸ h
    have hpage : (paginateDaisyTree tree ipp tagName basePath)[i] =
        mkPageAt (splitDaisyTreeByTag tree (elemTestOf tagName)).parts ipp
          basePath
          (((splitDaisyTreeByTag tree (elemTestOf tagName)).parts.length +
            ipp - 1) / ipp) i := by
      rw [List.getElem_of_eq (paginate_eq_map tree ipp tagName basePath hparts) h]
      rw [List.getElem_map, List.getElem_range]
    have hknz : (splitDaisyTreeByTag tree (elemTestOf tagName)).parts.length ≠ 0 := by
      intro h0
      exact absurd (by simpa [List.isEmpty_iff, List.length_eq_zero] using h0) hparts
    have hmul : (i + 1) * ipp ≤
        (splitDaisyTreeByTag tree (elemTestOf tagName)).parts.length + ipp - 1 :=
      (Nat.le_div_iff_mul_le hipp).mp hi
    have hstart : i * ipp <
        (splitDaisyTreeByTag tree (elemTestOf tagName)).parts.length := by
      rw [Nat.succ_mul] at hmul
      omega
    refine ⟨?_, ?_, ?_, ?_, ?_, ?_, ?_, ?_⟩
    · rw [hpage]
      dsimp only [mkPageAt]
      rw [List.length_take, List.length_drop]
      omega
    · rw [hpage]
      rfl
    · rw [hpage, hlen]
      rfl
    · rw [hpage]
      rfl
    · rw [hpage]
      dsimp only [mkPageAt]
      cases i with
      | zero => simp
      | succ j => simp
    · rw [hpage]
      dsimp only [mkPageAt]
      cases i with
      | zero => simp
      | succ j => simp
    · rw [hpage, hlen]
      dsimp only [mkPageAt]
      rcases Nat.lt_or_ge (i + 1)
        (((splitDaisyTreeByTag tree (elemTestOf tagName)).parts.length +
          ipp - 1) / ipp) with hlt | hge
      · rw [if_pos hlt, if_neg (by omega)]
      · rw [if_neg (by omega), if_pos (by omega)]
    · rw [hpage, hlen]
      dsimp only [mkPageAt]
      rcases Nat.lt_or_ge (i + 1)
        (((splitDaisyTreeByTag tree (elemTestOf tagName)).parts.length +
          ipp - 1) / ipp) with hlt | hge
      · rw [if_pos hlt, if_neg (by omega)]
      · rw [if_neg (by omega), if_pos (by omega)]

/-- C8 witness: the page-size hypothesis holds at the spec's concrete
example — five parts, two per page, base path `/` — which yields three
pages whose `prev`/`next` links are exactly as claimed. -/
theorem paginateDaisyTree_pages_witness :
    0 < 2 ∧
    (paginateDaisyTree fivePsTree 2 ["p"] "/").length =
      ((splitDaisyTreeByTag fivePsTree (elemTestOf ["p"])).parts.length +
        2 - 1) / 2 ∧
    (paginateDaisyTree fivePsTree 2 ["p"] "/").length = 3 ∧
    (paginateDaisyTree fivePsTree 2 ["p"] "/").map (fun p => p.url.prev) =
      [none, some "/1", some "/2"] ∧
    (paginateDaisyTree fivePsTree 2 ["p"] "/").map (fun p => p.url.next) =
      [some "/2", some "/3", none] :=
  ⟨by decide,
   (paginateDaisyTree_pages fivePsTree 2 ["p"] "/" (by decide)).1,
   rfl, rfl, rfl⟩

/-! ## The SMIL updater duplicates appended metas (C4) -/

/-- C4 (the code violates the claim): on a SMIL head holding a meta with
an unrelated name **before** the meta a key targets, a single
`updateSmilMetadataFromTree` call appends a duplicate `<meta>` for that
key even though one exists (2 metas named `dtb:totalElapsedTime` where
there was 1), and a second identical call appends yet another (3) instead
of updating the one the first call created: the create-if-missing block
runs inside the visit callback, before the traversal has seen the
matching meta. -/
theorem updateSmilMetadata_duplicates_appended :
    countMetasNamedL "dtb:totalElapsedTime" smilBugTree = 1 ∧
    (updateSmilMetadataFromTree 50 smilBugTree smilBugNewMetadata true).map
      (countMetasNamedL "dtb:totalElapsedTime") = some 2 ∧
    ((updateSmilMetadataFromTree 50 smilBugTree smilBugNewMetadata true).bind
        (fun t => updateSmilMetadataFromTree 50 t smilBugNewMetadata true)).map
      (countMetasNamedL "dtb:totalElapsedTime") = some 3 :=
  ⟨rfl, rfl, rfl⟩

/-! ## Error policy (C9) -/

mutual
theorem findElemsN_eq_nil (tag : String) :
    (n : XNode) → (findElemsN tag n = [] ↔ ¬ Occurs tag n)
  | .element nm attrs cs => by
    by_cases hnm : nm = tag
    · subst hnm
      simp only [findElemsN, if_pos rfl]
      constructor
      · intro h; cases h
      · intro h; exact absurd (Occurs.self attrs cs) h
    · simp only [findElemsN, if_neg hnm, List.nil_append]
      rw [findElemsL_eq_nil tag cs, occurs_element_iff]
      constructor
      · intro h hocc
        rcases hocc with hnm' | ⟨c, hc, hocc⟩
        · exact hnm hnm'
        · exact h c hc hocc
      · intro h c hc hocc
        exact h (Or.inr ⟨c, hc, hocc⟩)
  | .text v => by
    simp only [findElemsN]
    exact ⟨fun _ => not_occurs_text, fun _ => trivial⟩
  | .comment v => by
    simp only [findElemsN]
    exact ⟨fun _ => not_occurs_comment, fun _ => trivial⟩

theorem findElemsL_eq_nil (tag : String) :
    (l : List XNode) → (findElemsL tag l = [] ↔ ∀ c ∈ l, ¬ Occurs tag c)
  | [] => by simp [findElemsL]
  | c :: rest => by
    rw [findElemsL, List.append_eq_nil, findElemsN_eq_nil tag c,
      findElemsL_eq_nil tag rest]
    constructor
    · rintro ⟨h1, h2⟩ d hd
      rcases List.mem_cons.mp hd with rfl | hd'
      · exact h1
      · exact h2 d hd'
    · intro h
      exact ⟨h c (by simp), fun d hd => h d (List.mem_cons_of_mem _ hd)⟩
end

theorem trim_empty : ("" : String).trim = "" := by
  simp [String.trim, Substring.trim, String.toSubstring, Substring.trimLeft,
    Substring.trimRight, Substring.takeWhile, Substring.takeRightWhile,
    Substring.toString]
  rw [Substring.takeWhileAux]
  simp
  rw [Substring.takeRightWhileAux]
  simp [String.extract]

theorem findElemL_eq_none_iff_not_occursL (tag : String) (l : List XNode) :
    findElemL tag l = none ↔ ¬ OccursL tag l := by
  rw [findElemL_eq_none]
  simp [OccursL]

theorem isElemNamed_iff {c : XNode} {tag : String} :
    isElemNamed c tag = true ↔ ∃ attrs cs, c = XNode.element tag attrs cs := by
  cases c with
  | element nm attrs cs =>
    simp only [isElemNamed, decide_eq_true_eq]
    constructor
    · rintro rfl; exact ⟨attrs, cs, rfl⟩
    · rintro ⟨attrs', cs', h⟩
      exact (XNode.element.inj h).1
  | text v => simp [isElemNamed]
  | comment v => simp [isElemNamed]

theorem findDirectChildren_eq_nil (n : XNode) (tag : String) :
    findDirectChildren n tag = [] ↔ ¬ HasDirectChildNamed n tag := by
  rw [findDirectChildren, List.filter_eq_nil_iff]
  unfold HasDirectChildNamed
  constructor
  · rintro h ⟨c, hc, attrs, cs, rfl⟩
    exact h _ hc (isElemNamed_iff.mpr ⟨attrs, cs, rfl⟩)
  · intro h c hc hel
    obtain ⟨attrs, cs, rfl⟩ := isElemNamed_iff.mp hel
    exact h ⟨_, hc, attrs, cs, rfl⟩

theorem getAttribute_eq_none (n : XNode) (a : String) :
    getAttribute n a = none ↔ ∀ v, (a, v) ∉ attrsOf n := by
  rw [getAttribute, alookup_eq_none_iff_not_mem]
  constructor
  · intro h v hv
    exact h (List.mem_map.mpr ⟨(a, v), hv, rfl⟩)
  · intro h hmem
    obtain ⟨⟨k1, v1⟩, hp, he⟩ := List.mem_map.mp hmem
    cases he
    exact h v1 hp

theorem parseOpf_isOk (tree : List XNode) :
    (parseOpf tree).isOk = true ↔ OccursL "package" tree := by
  match hfind : findElemL "package" tree with
  | none =>
    have hno : ¬ OccursL "package" tree :=
      (findElemL_eq_none_iff_not_occursL _ _).mp hfind
    simp only [parseOpf, hfind]
    exact iff_of_false (by simp [Except.isOk, Except.toBool]) hno
  | some e =>
    have hocc : OccursL "package" tree := by
      by_contra hno
      rw [← findElemL_eq_none_iff_not_occursL] at hno
      rw [hno] at hfind
      cases hfind
    simp only [parseOpf, hfind]
    exact iff_of_true (by simp [Except.isOk, Except.toBool]) hocc

theorem parseNcx_isOk (tree : List XNode) :
    (parseNcx tree).isOk = true ↔ OccursL "ncx" tree := by
  match hfind : findElemL "ncx" tree with
  | none =>
    have hno : ¬ OccursL "ncx" tree :=
      (findElemL_eq_none_iff_not_occursL _ _).mp hfind
    simp only [parseNcx, hfind]
    exact iff_of_false (by simp [Except.isOk, Except.toBool]) hno
  | some e =>
    have hocc : OccursL "ncx" tree := by
      by_contra hno
      rw [← findElemL_eq_none_iff_not_occursL] at hno
      rw [hno] at hfind
      cases hfind
    simp only [parseNcx, hfind]
    exact iff_of_true (by simp [Except.isOk, Except.toBool]) hocc

theorem parseSmil_isOk (tree : List XNode) (smilFileName : String) :
    (parseSmil tree smilFileName).isOk = true ↔ OccursL "smil" tree := by
  match hfind : findElemL "smil" tree with
  | none =>
    have hno : ¬ OccursL "smil" tree :=
      (findElemL_eq_none_iff_not_occursL _ _).mp hfind
    simp only [parseSmil, hfind]
    exact iff_of_false (by simp [Except.isOk, Except.toBool]) hno
  | some e =>
    have hocc : OccursL "smil" tree := by
      by_contra hno
      rw [← findElemL_eq_none_iff_not_occursL] at hno
      rw [hno] at hfind
      cases hfind
    simp only [parseSmil, hfind]
    exact iff_of_true (by simp [Except.isOk, Except.toBool]) hocc

/-- C9: every query-layer lookup is a total function whose result is
empty/absent exactly when nothing matches (`findElement` and
`findElements` are sound and complete for the occurrence of a tag,
`findDirectChildren` for a direct element child, `getAttribute` for an
attribute entry, and `getTextContent` of a node with no text descendants
is the empty string); the format parsers, given a well-formed tree, fail
exactly when the required root element (`package`, `ncx`, `smil`) is
absent. -/
theorem lookups_never_raise_parsers_raise_iff_root_missing :
    (∀ (n : XNode) (tag : String), findElemN tag n = none ↔ ¬ Occurs tag n) ∧
    (∀ (l : List XNode) (tag : String),
        findElemL tag l = none ↔ ¬ OccursL tag l) ∧
    (∀ (n : XNode) (tag : String), findElemsN tag n = [] ↔ ¬ Occurs tag n) ∧
    (∀ (n : XNode) (tag : String),
        findDirectChildren n tag = [] ↔ ¬ HasDirectChildNamed n tag) ∧
    (∀ (n : XNode) (a : String),
        getAttribute n a = none ↔ ∀ v, (a, v) ∉ attrsOf n) ∧
    (∀ n : XNode, textsN n = [] → getTextContent n = "") ∧
    (∀ tree : List XNode, (parseOpf tree).isOk = true ↔ OccursL "package" tree) ∧
    (∀ tree : List XNode, (parseNcx tree).isOk = true ↔ OccursL "ncx" tree) ∧
    (∀ (tree : List XNode) (smilFileName : String),
        (parseSmil tree smilFileName).isOk = true ↔ OccursL "smil" tree) :=
  ⟨fun n tag => findElemN_eq_none tag n,
   fun l tag => findElemL_eq_none_iff_not_occursL tag l,
   fun n tag => findElemsN_eq_nil tag n,
   findDirectChildren_eq_nil,
   getAttribute_eq_none,
   fun n h => by rw [getTextContent, h]; exact trim_empty,
   parseOpf_isOk,
   parseNcx_isOk,
   parseSmil_isOk⟩

/-- C9 witness: the no-text-descendant clause applies to a concrete
childless element. -/
theorem lookups_never_raise_witness :
    textsN noTextEl = [] ∧ getTextContent noTextEl = "" :=
  ⟨rfl,
   lookups_never_raise_parsers_raise_iff_root_missing.2.2.2.2.2.1 noTextEl rfl⟩

end DaisyUtil
